import Mathlib

/-!
Verification of the distributed in-memory data store.

Shallow embedding of the C++ sources:
* `src/src/distributed_node.cpp` — `DistributedNode`, `ConsistentHashRing`,
  `ConcurrentHashMap`, `WriteAheadLog`
* `src/include/concurrency.hpp` — `LockFreeRingBuffer`, `ThreadPool`

C++ strings are modelled as `List Char`; the in-memory map
(`std::unordered_map`) as a function `List Char → Option (List Char)`
(only the key-to-value mapping is observable); the WAL file as the
`List Char` of its bytes.  `operator>>` token extraction is modelled by
`tokenize`, which splits on the default-locale whitespace characters.
-/

/-- Whitespace recognised by `std::istream` token extraction in the
default locale: space, tab, newline, vertical tab, form feed, carriage
return. -/
def isWs (c : Char) : Bool :=
  decide (c = ' ' ∨ c = '\t' ∨ c = '\n' ∨ c = '\x0b' ∨ c = '\x0c' ∨ c = '\r')

/-- Accumulator-based splitter: `tokenizeAux cs acc` scans `cs`, with
`acc` holding the (reversed) characters of the token currently being
read. -/
def tokenizeAux : List Char → List Char → List (List Char)
  | [], acc => if acc = [] then [] else [acc.reverse]
  | c :: cs, acc =>
    if isWs c then
      if acc = [] then tokenizeAux cs []
      else acc.reverse :: tokenizeAux cs []
    else tokenizeAux cs (c :: acc)

/-- The sequence of whitespace-delimited tokens of a character stream;
this is what repeated `>>` extraction on an `istringstream`/`ifstream`
yields. -/
def tokenize (s : List Char) : List (List Char) := tokenizeAux s []

/-- A token is well formed when it is nonempty and contains no
whitespace character: exactly the strings that survive a write-then-
`>>`-read round trip unchanged. -/
def wfTok (t : List Char) : Prop := t ≠ [] ∧ ∀ c ∈ t, isWs c = false

instance : DecidablePred wfTok := fun _ =>
  inferInstanceAs (Decidable (_ ∧ _))

/-! ### ConcurrentHashMap (distributed_node.cpp, `put`/`get`/`remove`) -/

/-- Observable state of `ConcurrentHashMap::kvStore_`: the key-to-value
mapping. -/
def Store := List Char → Option (List Char)

/-- A default-constructed map: empty. -/
def emptyStore : Store := fun _ => none

/-- `ConcurrentHashMap::put`: `kvStore_[key] = value` — an upsert. -/
def storePut (s : Store) (k v : List Char) : Store :=
  fun q => if q = k then some v else s q

/-- `ConcurrentHashMap::remove`: `kvStore_.erase(key) > 0` — returns
whether the key was present, and the map afterwards. -/
def storeRemove (s : Store) (k : List Char) : Bool × Store :=
  ((s k).isSome, fun q => if q = k then none else s q)

/-! ### WriteAheadLog (distributed_node.cpp) -/

/-- A logical WAL operation. -/
inductive WalOp : Type
  | put (k v : List Char)
  | remove (k : List Char)
deriving DecidableEq

/-- Applying one operation to the store (what `replay` does per complete
record, and what direct application does). -/
def applyWalOp (s : Store) : WalOp → Store
  | WalOp.put k v => storePut s k v
  | WalOp.remove k => (storeRemove s k).2

/-- Applying a sequence of operations in order. -/
def applyWalOps (ops : List WalOp) (s : Store) : Store :=
  ops.foldl applyWalOp s

/-- The token `PUT`. -/
def putTok : List Char := ['P', 'U', 'T']

/-- The token `REMOVE`. -/
def removeTok : List Char := ['R', 'E', 'M', 'O', 'V', 'E']

/-- The token `GET`. -/
def getTok : List Char := ['G', 'E', 'T']

/-- Bytes appended to the WAL file by `WriteAheadLog::logPut` /
`logRemove`: `"PUT " << key << " " << value << "\n"` and
`"REMOVE " << key << "\n"`. -/
def logOp : WalOp → List Char
  | WalOp.put k v => putTok ++ ' ' :: (k ++ ' ' :: (v ++ ['\n']))
  | WalOp.remove k => removeTok ++ ' ' :: (k ++ ['\n'])

/-- WAL file contents after logging a sequence of operations. -/
def logOps (ops : List WalOp) : List Char := (ops.map logOp).flatten

/-- The replay loop of `WriteAheadLog::replay`, acting on the token
stream.  Per C++ semantics of `operator>>` on `std::string`: extraction
of a token fails only when the stream is exhausted, in which case the
freshly default-constructed target string stays `""`; the failed stream
then makes the next `in >> cmd` fail and the loop breaks.  Note that a
truncated trailing `PUT`/`REMOVE` record is still applied, with the
missing tokens defaulted to the empty string. -/
def replayTokens : List (List Char) → Store → Store
  | [], s => s
  | cmd :: rest, s =>
    if cmd = putTok then
      match rest with
      | k :: v :: rest2 => replayTokens rest2 (storePut s k v)
      | [k] => storePut s k []
      | [] => storePut s [] []
    else if cmd = removeTok then
      match rest with
      | k :: rest2 => replayTokens rest2 (storeRemove s k).2
      | [] => (storeRemove s []).2
    else replayTokens rest s

/-- `WriteAheadLog::replay` on a file with the given bytes, into the
given store. -/
def replay (file : List Char) (s : Store) : Store :=
  replayTokens (tokenize file) s

/-- Token-level image of one logged operation. -/
def opToks : WalOp → List (List Char)
  | WalOp.put k v => [putTok, k, v]
  | WalOp.remove k => [removeTok, k]

/-- Token-level image of a logged sequence. -/
def opsToks (ops : List WalOp) : List (List Char) := (ops.map opToks).flatten

/-- Well-formedness of one operation: all its strings survive the
round trip. -/
def wfOp : WalOp → Prop
  | WalOp.put k v => wfTok k ∧ wfTok v
  | WalOp.remove k => wfTok k

instance : DecidablePred wfOp
  | WalOp.put k v => inferInstanceAs (Decidable (wfTok k ∧ wfTok v))
  | WalOp.remove k => inferInstanceAs (Decidable (wfTok k))

/-- Shapes of a truncated trailing WAL record: a `PUT` with zero or one
following token, or a `REMOVE` with none. -/
inductive TruncRec : Type
  | putNone
  | putKey (k : List Char)
  | removeNone

/-- The bytes of a truncated trailing record as it appears in the file
(no trailing separator: the write was cut short). -/
def truncText : TruncRec → List Char
  | TruncRec.putNone => putTok
  | TruncRec.putKey k => putTok ++ ' ' :: k
  | TruncRec.removeNone => removeTok

/-- What the replay loop actually does on reaching a truncated trailing
record: the failed extractions leave the default-constructed empty
strings in place and the record is applied with them. -/
def applyTrunc : TruncRec → Store → Store
  | TruncRec.putNone, s => storePut s [] []
  | TruncRec.putKey k, s => storePut s k []
  | TruncRec.removeNone, s => (storeRemove s []).2

/-- Well-formedness for a truncated record (its one surviving token, if
any, is a genuine token). -/
def wfTrunc : TruncRec → Prop
  | TruncRec.putNone => True
  | TruncRec.putKey k => wfTok k
  | TruncRec.removeNone => True

instance : DecidablePred wfTrunc
  | TruncRec.putNone => inferInstanceAs (Decidable True)
  | TruncRec.putKey k => inferInstanceAs (Decidable (wfTok k))
  | TruncRec.removeNone => inferInstanceAs (Decidable True)

/-! ### ConsistentHashRing (distributed_node.cpp)

`ring_` is a `std::map<size_t, std::string>`, modelled as an
association list sorted strictly by hash value.  `std::hash<std::string>`
is implementation-defined, so the hash is a parameter `hsh`. -/

/-- The ordered map `ring_`. -/
abbrev RingMap := List (Nat × String)

/-- Strict sortedness by hash value: the `std::map` representation
invariant. -/
def RingSorted (r : RingMap) : Prop :=
  List.Pairwise (fun p q : Nat × String => p.1 < q.1) r

instance : DecidablePred RingSorted := fun r =>
  inferInstanceAs (Decidable (List.Pairwise _ r))

/-- `ring_[hashVal] = nodeName`: ordered-map insert-or-assign. -/
def ringInsert : RingMap → Nat → String → RingMap
  | [], hv, v => [(hv, v)]
  | (h0, v0) :: rest, hv, v =>
    if hv < h0 then (hv, v) :: (h0, v0) :: rest
    else if hv = h0 then (hv, v) :: rest
    else (h0, v0) :: ringInsert rest hv v

/-- `ring_.erase(hashVal)`: drop the entry with that hash value. -/
def ringErase : RingMap → Nat → RingMap
  | [], _ => []
  | (h0, v0) :: rest, hv =>
    if h0 = hv then ringErase rest hv else (h0, v0) :: ringErase rest hv

/-- The hash of the virtual replica point `nodeName + "#" + to_string(i)`. -/
def replicaKey (hsh : String → Nat) (n : String) (i : Nat) : Nat :=
  hsh (n ++ "#" ++ toString i)

/-- Inserting entries with value `v` at keys `g i` for each `i` in
`is`, in order: the loop body of `addNode`. -/
def insertKeys (g : Nat → Nat) (v : String) (is : List Nat) (r : RingMap) : RingMap :=
  is.foldl (fun acc i => ringInsert acc (g i) v) r

/-- Erasing the keys `g i` for each `i` in `is`, in order: the loop
body of `removeNode`. -/
def eraseKeys (g : Nat → Nat) (is : List Nat) (r : RingMap) : RingMap :=
  is.foldl (fun acc i => ringErase acc (g i)) r

/-- `ConsistentHashRing::addNode`: for `i` in `[0, numReplicas)` insert
`ring_[hash(name + "#" + to_string(i))] = name`. -/
def addNode (hsh : String → Nat) (numReplicas : Nat) (r : RingMap) (n : String) : RingMap :=
  insertKeys (replicaKey hsh n) n (List.range numReplicas) r

/-- `ConsistentHashRing::removeNode`: for `i` in `[0, numReplicas)`
erase `ring_[hash(name + "#" + to_string(i))]`. -/
def removeNode (hsh : String → Nat) (numReplicas : Nat) (r : RingMap) (n : String) : RingMap :=
  eraseKeys (replicaKey hsh n) (List.range numReplicas) r

/-- `ring_.lower_bound(hashVal)` on the sorted list: the first entry in
ascending order whose key is ≥ `hv`. -/
def lowerBound : RingMap → Nat → Option (Nat × String)
  | [], _ => none
  | (h0, v0) :: rest, hv =>
    if hv ≤ h0 then some (h0, v0) else lowerBound rest hv

/-- `ConsistentHashRing::getNode`: empty ring gives `""`; otherwise
`lower_bound(hash(key))`, wrapping to `begin()` at the end.  (When the
ring is empty `lowerBound` is `none` and `head?` is `none`, giving the
source's early `return ""`.) -/
def getNode (hsh : String → Nat) (r : RingMap) (k : String) : String :=
  match lowerBound r (hsh k) with
  | some p => p.2
  | none =>
    match r.head? with
    | some q => q.2
    | none => ""

/-- The least entry by hash value, preferring the earlier entry on
ties. -/
def minByFst : RingMap → Option (Nat × String)
  | [] => none
  | p :: rest =>
    match minByFst rest with
    | none => some p
    | some q => if q.1 < p.1 then some q else some p

/-- Modelled from the spec's words for `getNode(key)` (spec §4.1):
"computes `hash(key)`, finds the first point with a hash value ≥ the
key's hash in ascending order; if none exists, wraps to the smallest
point (clockwise ring semantics). Returns an empty/absent result if the
ring has no points."  Stated order-insensitively via least-selection,
for comparison with the source's `lowerBound` walk. -/
def getNodeSpec (hsh : String → Nat) (r : RingMap) (k : String) : String :=
  match minByFst (r.filter fun p => decide (hsh k ≤ p.1)) with
  | some p => p.2
  | none =>
    match minByFst r with
    | some q => q.2
    | none => ""

/-- Operations performed on one ring over its lifetime. -/
inductive RingOp : Type
  | add (n : String)
  | remove (n : String)
deriving DecidableEq

/-- One ring mutation. -/
def applyRingOp (hsh : String → Nat) (numReplicas : Nat) (r : RingMap) : RingOp → RingMap
  | RingOp.add n => addNode hsh numReplicas r n
  | RingOp.remove n => removeNode hsh numReplicas r n

/-- A sequence of ring mutations, applied in order. -/
def applyRingOps (hsh : String → Nat) (numReplicas : Nat)
    (ops : List RingOp) (r : RingMap) : RingMap :=
  ops.foldl (applyRingOp hsh numReplicas) r

/-- Whether an operation is `addNode` of the given name. -/
def isAddOf (c : String) : RingOp → Bool
  | RingOp.add n => n = c
  | RingOp.remove _ => false

/-- Every entry of the ring sits at the hash of one of its value's own
replica points — the invariant of rings built by `addNode`/`removeNode`
with a fixed `numReplicas`. -/
def GoodRing (hsh : String → Nat) (numReplicas : Nat) (r : RingMap) : Prop :=
  ∀ p ∈ r, ∃ i, i < numReplicas ∧ p.1 = replicaKey hsh p.2 i

/-- No entry of the ring carries the value `c`. -/
def NoVal (c : String) (r : RingMap) : Prop := ∀ p ∈ r, p.2 ≠ c

/-! ### DistributedNode::handleClient (distributed_node.cpp) -/

/-- The node state a client handler can touch: the store and the WAL
file bytes. -/
structure NodeState : Type where
  store : Store
  wal : List Char

/-- Result of one `handleClient` call: the bytes sent back (if any),
the node state afterwards, and whether the socket was closed. -/
structure HandleResult : Type where
  response : Option (List Char)
  state : NodeState
  closed : Bool

/-- `"VALUE " + val + "\n"`. -/
def valueResp (v : List Char) : List Char :=
  'V' :: 'A' :: 'L' :: 'U' :: 'E' :: ' ' :: (v ++ ['\n'])

/-- `"NOT_FOUND\n"`. -/
def notFoundResp : List Char :=
  ['N', 'O', 'T', '_', 'F', 'O', 'U', 'N', 'D', '\n']

/-- The dispatch of `handleClient` on the token stream of the received
bytes.  `iss >> cmd` yields the first token (or leaves `cmd` empty);
`PUT` then extracts key and value, `REMOVE`/`GET` a key, each defaulting
to the empty string when the stream is exhausted.  `PUT` and `REMOVE`
go through `DistributedNode::put`/`removeKey`, which mutate the store
and append to the WAL; `GET` only reads.  The socket is closed on every
path. -/
def handleToks : List (List Char) → NodeState → HandleResult
  | [], st => ⟨none, st, true⟩
  | cmd :: rest, st =>
    if cmd = putTok then
      match rest with
      | k :: v :: _ =>
        ⟨none, ⟨storePut st.store k v, st.wal ++ logOp (WalOp.put k v)⟩, true⟩
      | [k] =>
        ⟨none, ⟨storePut st.store k [], st.wal ++ logOp (WalOp.put k [])⟩, true⟩
      | [] =>
        ⟨none, ⟨storePut st.store [] [], st.wal ++ logOp (WalOp.put [] [])⟩, true⟩
    else if cmd = removeTok then
      match rest with
      | k :: _ =>
        ⟨none, ⟨(storeRemove st.store k).2, st.wal ++ logOp (WalOp.remove k)⟩, true⟩
      | [] =>
        ⟨none, ⟨(storeRemove st.store []).2, st.wal ++ logOp (WalOp.remove [])⟩, true⟩
    else if cmd = getTok then
      match rest with
      | k :: _ =>
        match st.store k with
        | some v => ⟨some (valueResp v), st, true⟩
        | none => ⟨some notFoundResp, st, true⟩
      | [] =>
        match st.store [] with
        | some v => ⟨some (valueResp v), st, true⟩
        | none => ⟨some notFoundResp, st, true⟩
    else ⟨none, st, true⟩

/-- `DistributedNode::handleClient` on the received bytes. -/
def handleClient (req : List Char) (st : NodeState) : HandleResult :=
  handleToks (tokenize req) st

/-! ### LockFreeRingBuffer (concurrency.hpp)

`Size` is the template capacity; the backing array has `Size + 1`
slots.  `head_`/`tail_` always hold values in `[0, Size]`, so plain
`Nat` with explicit `% (Size + 1)` models the `size_t` indices
faithfully.  Claims are about strictly sequential use, so the atomics
collapse to plain state. -/

/-- Ring-buffer state: backing array (by index) and the two indices. -/
structure RB (α : Type) : Type where
  buf : Nat → α
  head : Nat
  tail : Nat

/-- A freshly constructed buffer: `head_ = tail_ = 0`, slots default
initialised. -/
def rbEmpty (d : α) : RB α := ⟨fun _ => d, 0, 0⟩

/-- `LockFreeRingBuffer::push`: fails (returning `false`) when
advancing `head` would hit `tail`; otherwise stores the item at `head`
and advances it. -/
def rbPush (size : Nat) (x : α) (r : RB α) : Bool × RB α :=
  if (r.head + 1) % (size + 1) = r.tail then (false, r)
  else
    (true, ⟨fun i => if i = r.head then x else r.buf i,
            (r.head + 1) % (size + 1), r.tail⟩)

/-- `LockFreeRingBuffer::pop`: fails (returning `none`) when
`tail = head`; otherwise yields the item at `tail` and advances it. -/
def rbPop (size : Nat) (r : RB α) : Option α × RB α :=
  if r.tail = r.head then (none, r)
  else (some (r.buf r.tail), ⟨r.buf, r.head, (r.tail + 1) % (size + 1)⟩)

/-- `LockFreeRingBuffer::size`: `h - t` when `h ≥ t`, else
`(Size + 1) - (t - h)`. -/
def rbSize (size : Nat) (r : RB α) : Nat :=
  if r.tail ≤ r.head then r.head - r.tail else (size + 1) - (r.tail - r.head)

/-- State after `n` sequential pushes of `f 0, f 1, …` (failed pushes
leave the state unchanged, as in the source). -/
def pushN (size : Nat) (f : Nat → α) (r : RB α) : Nat → RB α
  | 0 => r
  | n + 1 => (rbPush size (f n) (pushN size f r n)).2

/-- State after `n` sequential pops. -/
def popN (size : Nat) (r : RB α) : Nat → RB α
  | 0 => r
  | n + 1 => (rbPop size (popN size r n)).2

/-! ### ThreadPool (concurrency.hpp / concurrency.cpp)

Only the queue/stop-flag logic of `enqueue` is claim-relevant; tasks
are opaque. -/

/-- The pool state guarded by `queueMutex_`: the pending task list and
the stop flag. -/
structure PoolState (τ : Type) : Type where
  tasks : List τ
  stop : Bool

/-- `ThreadPool::enqueue` under the lock: throws
`std::runtime_error("enqueue on stopped ThreadPool")` when `stop_` is
set, otherwise appends the wrapped task to the back of the queue. -/
def enqueue (st : PoolState τ) (t : τ) : Except String (PoolState τ) :=
  if st.stop then Except.error "enqueue on stopped ThreadPool"
  else Except.ok ⟨st.tasks ++ [t], st.stop⟩

/-- The first action of `~ThreadPool()`: set `stop_ = true` under the
lock. -/
def shutdownBegin (st : PoolState τ) : PoolState τ := ⟨st.tasks, true⟩

/-! ### Concrete instances used by witnesses and counterexamples -/

/-- A concrete stand-in hash for witnesses (any function works). -/
def hashLen : String → Nat := String.length

/-- A concrete hash exhibiting a collision between the replica points
`"X#0"` and `"Y#0"` — `std::hash` is implementation-defined and not
injective, so such collisions are not excluded by the source. -/
def hashCollide : String → Nat :=
  fun s => if s = "X#0" then 5 else if s = "Y#0" then 5 else s.length

/-! ## Tokenizer lemmas -/

theorem tokenizeAux_nonws :
    ∀ (t : List Char), (∀ c ∈ t, isWs c = false) →
      ∀ (rest acc : List Char),
        tokenizeAux (t ++ rest) acc = tokenizeAux rest (t.reverse ++ acc) := by
  intro t
  induction t with
  | nil => intro _ rest acc; simp
  | cons c t ih =>
    intro hw rest acc
    have hc : isWs c = false := hw c (List.mem_cons_self _ _)
    have h1 : tokenizeAux (c :: (t ++ rest)) acc = tokenizeAux (t ++ rest) (c :: acc) := by
      simp [tokenizeAux, hc]
    simp only [List.cons_append, h1]
    rw [ih (fun d hd => hw d (List.mem_cons_of_mem _ hd)) rest (c :: acc)]
    simp

theorem tokenizeAux_ws_cons (c : Char) (cs acc : List Char)
    (hc : isWs c = true) (hacc : acc ≠ []) :
    tokenizeAux (c :: cs) acc = acc.reverse :: tokenizeAux cs [] := by
  simp [tokenizeAux, hc, hacc]

theorem tokenizeAux_nil_acc (acc : List Char) (hacc : acc ≠ []) :
    tokenizeAux [] acc = [acc.reverse] := by
  simp [tokenizeAux, hacc]

/-- Reading one well-formed token terminated by a whitespace character. -/
theorem tokenize_tok_ws (t : List Char) (ht : wfTok t) (c : Char)
    (hc : isWs c = true) (rest : List Char) :
    tokenize (t ++ c :: rest) = t :: tokenize rest := by
  unfold tokenize
  rw [tokenizeAux_nonws t ht.2 (c :: rest) []]
  rw [tokenizeAux_ws_cons c rest _ hc (by simpa using ht.1)]
  simp

/-- Reading one well-formed token at the end of the stream. -/
theorem tokenize_tok_end (t : List Char) (ht : wfTok t) : tokenize t = [t] := by
  unfold tokenize
  have h1 := tokenizeAux_nonws t ht.2 [] []
  simp only [List.append_nil] at h1
  rw [h1, tokenizeAux_nil_acc _ (by simpa using ht.1)]
  simp

/-- Tokens of one logged record followed by anything. -/
theorem tokenize_logOp (op : WalOp) (rest : List Char) (hop : wfOp op) :
    tokenize (logOp op ++ rest) = opToks op ++ tokenize rest := by
  cases op with
  | put k v =>
    obtain ⟨hk, hv⟩ : wfTok k ∧ wfTok v := hop
    have h1 : logOp (WalOp.put k v) ++ rest
        = putTok ++ ' ' :: (k ++ ' ' :: (v ++ '\n' :: rest)) := by
      simp [logOp]
    rw [h1, tokenize_tok_ws putTok (by decide) ' ' (by decide),
        tokenize_tok_ws k hk ' ' (by decide),
        tokenize_tok_ws v hv '\n' (by decide)]
    rfl
  | remove k =>
    have hk : wfTok k := hop
    have h1 : logOp (WalOp.remove k) ++ rest
        = removeTok ++ ' ' :: (k ++ '\n' :: rest) := by
      simp [logOp]
    rw [h1, tokenize_tok_ws removeTok (by decide) ' ' (by decide),
        tokenize_tok_ws k hk '\n' (by decide)]
    rfl

/-- Tokens of a logged sequence followed by anything. -/
theorem tokenize_logOps (ops : List WalOp) (rest : List Char)
    (hops : ∀ op ∈ ops, wfOp op) :
    tokenize (logOps ops ++ rest) = opsToks ops ++ tokenize rest := by
  induction ops with
  | nil => simp [logOps, opsToks]
  | cons op ops ih =>
    have h1 : logOps (op :: ops) ++ rest = logOp op ++ (logOps ops ++ rest) := by
      simp [logOps]
    rw [h1, tokenize_logOp op _ (hops op (by simp)),
        ih (fun o ho => hops o (by simp [ho]))]
    simp [opsToks]

/-- Unfolding: a `PUT` record's three tokens at the head of the
stream. -/
theorem replayTokens_put_cons (k v : List Char) (ts : List (List Char)) (s : Store) :
    replayTokens (putTok :: k :: v :: ts) s = replayTokens ts (storePut s k v) := by
  simp [replayTokens]

/-- Unfolding: a `REMOVE` record's two tokens at the head of the
stream. -/
theorem replayTokens_remove_cons (k : List Char) (ts : List (List Char)) (s : Store) :
    replayTokens (removeTok :: k :: ts) s = replayTokens ts (storeRemove s k).2 := by
  have hne : ¬ (removeTok = putTok) := by decide
  cases ts with
  | nil => simp [replayTokens, hne]
  | cons t ts2 => simp [replayTokens, hne]

/-- The replay loop consumes the tokens of complete records exactly as
direct application of the operations. -/
theorem replayTokens_opsToks (ops : List WalOp) (ts : List (List Char)) (s : Store) :
    replayTokens (opsToks ops ++ ts) s = replayTokens ts (applyWalOps ops s) := by
  induction ops generalizing s with
  | nil => simp [opsToks, applyWalOps]
  | cons op ops ih =>
    cases op with
    | put k v =>
      have h1 : opsToks (WalOp.put k v :: ops) ++ ts
          = putTok :: k :: v :: (opsToks ops ++ ts) := by
        simp [opsToks, opToks]
      rw [h1, replayTokens_put_cons, ih]
      rfl
    | remove k =>
      have h1 : opsToks (WalOp.remove k :: ops) ++ ts
          = removeTok :: k :: (opsToks ops ++ ts) := by
        simp [opsToks, opToks]
      rw [h1, replayTokens_remove_cons, ih]
      rfl

theorem replayTokens_putNone (s : Store) :
    replayTokens [putTok] s = storePut s [] [] := by
  simp [replayTokens]

theorem replayTokens_putKey (k : List Char) (s : Store) :
    replayTokens [putTok, k] s = storePut s k [] := by
  simp [replayTokens]

theorem replayTokens_removeNone (s : Store) :
    replayTokens [removeTok] s = (storeRemove s []).2 := by
  have hne : ¬ (removeTok = putTok) := by decide
  simp [replayTokens, hne]

/-! ## Claim C1: WAL round trip -/

/-- Claim C1 counterexample: the operation `put("a b", "c")` — a key
containing a space — breaks the round trip.  The log line `PUT a b c`
replays as `put("a", "b")` (with the stray token `c` skipped), so the
replayed store maps `"a"` to `"b"` while the directly built store does
not bind `"a"` at all. -/
theorem wal_roundtrip_cex :
    ¬ (replay (logOps [WalOp.put ['a', ' ', 'b'] ['c']]) emptyStore
        = applyWalOps [WalOp.put ['a', ' ', 'b'] ['c']] emptyStore) := by
  intro h
  exact absurd (congrFun h ['a']) (by decide)

/-- Claim C1 (amended): for every finite sequence of put/remove
operations whose keys and values are nonempty and free of whitespace,
applying the operations directly to a fresh store yields the same final
key-to-value mapping as logging each operation via
`WriteAheadLog::logPut`/`logRemove` and replaying the resulting log
file into a fresh store with `WriteAheadLog::replay`. -/
theorem wal_roundtrip (ops : List WalOp) (hops : ∀ op ∈ ops, wfOp op) :
    replay (logOps ops) emptyStore = applyWalOps ops emptyStore := by
  unfold replay
  have h1 : tokenize (logOps ops) = opsToks ops := by
    have h2 := tokenize_logOps ops [] hops
    simpa [tokenize, tokenizeAux] using h2
  rw [h1]
  have h3 := replayTokens_opsToks ops [] emptyStore
  simpa [replayTokens] using h3

/-- Witness for `wal_roundtrip` at a concrete three-operation
sequence. -/
theorem wal_roundtrip_witness :
    (∀ op ∈ [WalOp.put ['I', 'B', 'M'] ['1', '4', '0'],
             WalOp.remove ['I', 'B', 'M'],
             WalOp.put ['A'] ['2']], wfOp op)
    ∧ replay (logOps [WalOp.put ['I', 'B', 'M'] ['1', '4', '0'],
                      WalOp.remove ['I', 'B', 'M'],
                      WalOp.put ['A'] ['2']]) emptyStore
        = applyWalOps [WalOp.put ['I', 'B', 'M'] ['1', '4', '0'],
                       WalOp.remove ['I', 'B', 'M'],
                       WalOp.put ['A'] ['2']] emptyStore :=
  ⟨by decide, wal_roundtrip _ (by decide)⟩

/-! ## Claim C2: replay of a truncated trailing record -/

/-- Claim C2 counterexample: for the file `"REMOVE x\nPUT a"` (one
complete record followed by a truncated `PUT` with a single argument),
the claim predicts the final store is exactly the result of the
complete records — in which `"a"` is unbound — but `replay` also
applies the truncated record as `put("a", "")`. -/
theorem replay_truncated_cex :
    ¬ (replay (logOps [WalOp.remove ['x']] ++ truncText (TruncRec.putKey ['a']))
          emptyStore
        = applyWalOps [WalOp.remove ['x']] emptyStore) := by
  intro h
  exact absurd (congrFun h ['a']) (by decide)

/-- Claim C2 (amended): for a WAL file consisting of well-formed
complete records followed by a truncated trailing record, `replay`
applies every complete record to the store in file order and then also
applies the truncated record, with its missing tokens defaulted to
empty strings (`put(key, "")` for a one-argument `PUT`, `put("", "")`
for a bare `PUT`, `remove("")` for a bare `REMOVE`), stopping there
without failing. -/
theorem replay_truncated (ops : List WalOp) (t : TruncRec)
    (hops : ∀ op ∈ ops, wfOp op) (ht : wfTrunc t) :
    replay (logOps ops ++ truncText t) emptyStore
      = applyTrunc t (applyWalOps ops emptyStore) := by
  unfold replay
  rw [tokenize_logOps ops _ hops]
  cases t with
  | putNone =>
    rw [show truncText TruncRec.putNone = putTok from rfl,
        tokenize_tok_end putTok (by decide), replayTokens_opsToks,
        replayTokens_putNone]
    rfl
  | putKey k =>
    have h1 : tokenize (truncText (TruncRec.putKey k)) = [putTok, k] := by
      rw [show truncText (TruncRec.putKey k) = putTok ++ ' ' :: k from rfl,
          tokenize_tok_ws putTok (by decide) ' ' (by decide),
          tokenize_tok_end k ht]
    rw [h1, replayTokens_opsToks, replayTokens_putKey]
    rfl
  | removeNone =>
    rw [show truncText TruncRec.removeNone = removeTok from rfl,
        tokenize_tok_end removeTok (by decide), replayTokens_opsToks,
        replayTokens_removeNone]
    rfl

/-- Witness for `replay_truncated`: one complete `PUT` followed by a
truncated one-argument `PUT`. -/
theorem replay_truncated_witness :
    (∀ op ∈ [WalOp.put ['a'] ['b']], wfOp op)
    ∧ wfTrunc (TruncRec.putKey ['x'])
    ∧ replay (logOps [WalOp.put ['a'] ['b']] ++ truncText (TruncRec.putKey ['x']))
          emptyStore
        = applyTrunc (TruncRec.putKey ['x'])
            (applyWalOps [WalOp.put ['a'] ['b']] emptyStore) :=
  ⟨by decide, by decide, replay_truncated _ _ (by decide) (by decide)⟩

/-! ## Claim C7: store operations -/

/-- Splitting a snoc list at an occurrence of `y`: either `y` is the
final element, or the final element lands inside the suffix. -/
theorem concat_eq_append_cons {α : Type} {l l1 l2 : List α} {x y : α}
    (h : l ++ [x] = l1 ++ y :: l2) :
    (l2 = [] ∧ y = x ∧ l1 = l) ∨ ∃ l2', l2 = l2' ++ [x] ∧ l = l1 ++ y :: l2' := by
  rcases List.eq_nil_or_concat l2 with h2 | ⟨L, b, hc⟩
  · subst h2
    obtain ⟨h4, h5⟩ := List.append_inj' h rfl
    exact Or.inl ⟨rfl, by simpa using h5.symm, h4.symm⟩
  · rw [List.concat_eq_append] at hc
    subst hc
    have h3 : l ++ [x] = (l1 ++ y :: L) ++ [b] := by rw [h]; simp
    obtain ⟨h4, h5⟩ := List.append_inj' h3 rfl
    have hb : x = b := by simpa using h5
    subst hb
    exact Or.inr ⟨L, rfl, h4⟩

/-- A key is unbound after a history of operations exactly when it was
never put, or some remove of it is followed by no further put of it. -/
theorem applyWalOps_none_iff (ops : List WalOp) (k : List Char) :
    applyWalOps ops emptyStore k = none ↔
      ((∀ v, WalOp.put k v ∉ ops) ∨
       ∃ l1 l2, ops = l1 ++ WalOp.remove k :: l2 ∧ ∀ v, WalOp.put k v ∉ l2) := by
  induction ops using List.reverseRecOn with
  | nil => exact iff_of_true rfl (Or.inl (by simp))
  | append_singleton l op ih =>
    have hfold : applyWalOps (l ++ [op]) emptyStore
        = applyWalOp (applyWalOps l emptyStore) op := by
      simp [applyWalOps, List.foldl_append]
    rw [hfold]
    cases op with
    | put k2 v2 =>
      by_cases hk : k = k2
      · subst hk
        have hL : applyWalOp (applyWalOps l emptyStore) (WalOp.put k v2) k
            = some v2 := by simp [applyWalOp, storePut]
        rw [hL]
        constructor
        · intro h; exact absurd h (by simp)
        · rintro (hnp | ⟨l1, l2, heq, hnp2⟩)
          · exact absurd (by simp : WalOp.put k v2 ∈ l ++ [WalOp.put k v2]) (hnp v2)
          · rcases concat_eq_append_cons heq with ⟨_, hy, _⟩ | ⟨l2', hl2, _⟩
            · exact WalOp.noConfusion hy
            · exact absurd (by rw [hl2]; simp) (hnp2 v2)
      · have hL : applyWalOp (applyWalOps l emptyStore) (WalOp.put k2 v2) k
            = applyWalOps l emptyStore k := by simp [applyWalOp, storePut, hk]
        rw [hL, ih]
        constructor
        · rintro (hnp | ⟨l1, l2, rfl, hnp2⟩)
          · refine Or.inl fun v hv => ?_
            rcases List.mem_append.mp hv with h1 | h1
            · exact hnp v h1
            · have h2 : WalOp.put k v = WalOp.put k2 v2 := by simpa using h1
              exact hk (by injection h2)
          · refine Or.inr ⟨l1, l2 ++ [WalOp.put k2 v2], by simp, fun v hv => ?_⟩
            rcases List.mem_append.mp hv with h1 | h1
            · exact hnp2 v h1
            · have h2 : WalOp.put k v = WalOp.put k2 v2 := by simpa using h1
              exact hk (by injection h2)
        · rintro (hnp | ⟨l1, l2, heq, hnp2⟩)
          · exact Or.inl fun v hv => hnp v (List.mem_append_left _ hv)
          · rcases concat_eq_append_cons heq with ⟨_, hy, _⟩ | ⟨l2', rfl, hl⟩
            · exact absurd hy (by simp)
            · exact Or.inr ⟨l1, l2', hl, fun v hv =>
                hnp2 v (List.mem_append_left _ hv)⟩
    | remove k2 =>
      by_cases hk : k = k2
      · subst hk
        have hL : applyWalOp (applyWalOps l emptyStore) (WalOp.remove k) k
            = none := by simp [applyWalOp, storeRemove]
        rw [hL]
        exact iff_of_true rfl (Or.inr ⟨l, [], rfl, by simp⟩)
      · have hL : applyWalOp (applyWalOps l emptyStore) (WalOp.remove k2) k
            = applyWalOps l emptyStore k := by simp [applyWalOp, storeRemove, hk]
        rw [hL, ih]
        constructor
        · rintro (hnp | ⟨l1, l2, rfl, hnp2⟩)
          · refine Or.inl fun v hv => ?_
            rcases List.mem_append.mp hv with h1 | h1
            · exact hnp v h1
            · simp at h1
          · refine Or.inr ⟨l1, l2 ++ [WalOp.remove k2], by simp, fun v hv => ?_⟩
            rcases List.mem_append.mp hv with h1 | h1
            · exact hnp2 v h1
            · simp at h1
        · rintro (hnp | ⟨l1, l2, heq, hnp2⟩)
          · exact Or.inl fun v hv => hnp v (List.mem_append_left _ hv)
          · rcases concat_eq_append_cons heq with ⟨_, hy, _⟩ | ⟨l2', rfl, hl⟩
            · have h2 : k = k2 := by injection hy
              exact absurd h2 hk
            · exact Or.inr ⟨l1, l2', hl, fun v hv =>
                hnp2 v (List.mem_append_left _ hv)⟩

/-- Claim C7: `put(key, value)` upserts so a subsequent `get(key)`
returns `value`; `get(key)` is absent exactly when the key was never
put, or was removed with no later put; and `remove(key)` returns `true`
iff the key was present immediately before, leaving it absent. -/
theorem store_ops_correct :
    (∀ (s : Store) (k v : List Char), storePut s k v k = some v)
    ∧ (∀ (ops : List WalOp) (k : List Char),
        applyWalOps ops emptyStore k = none ↔
          ((∀ v, WalOp.put k v ∉ ops) ∨
           ∃ l1 l2, ops = l1 ++ WalOp.remove k :: l2 ∧ ∀ v, WalOp.put k v ∉ l2))
    ∧ (∀ (s : Store) (k : List Char), (storeRemove s k).1 = true ↔ s k ≠ none)
    ∧ (∀ (s : Store) (k : List Char), (storeRemove s k).2 k = none) := by
  refine ⟨fun s k v => by simp [storePut],
          fun ops k => applyWalOps_none_iff ops k,
          fun s k => ?_,
          fun s k => by simp [storeRemove]⟩
  simp [storeRemove, Option.isSome_iff_ne_none]

/-! ## Ring lemmas -/

theorem mem_ringInsert {r : RingMap} {hv : Nat} {v : String} {p : Nat × String}
    (hp : p ∈ ringInsert r hv v) : p = (hv, v) ∨ p ∈ r := by
  induction r with
  | nil => simpa [ringInsert] using hp
  | cons q rest ih =>
    obtain ⟨h0, v0⟩ := q
    by_cases h1 : hv < h0
    · simp [ringInsert, h1] at hp ⊢
      tauto
    · by_cases h2 : hv = h0
      · simp [ringInsert, h1, h2] at hp ⊢
        tauto
      · simp [ringInsert, h1, h2] at hp ⊢
        rcases hp with hp | hp
        · tauto
        · rcases ih hp with h | h <;> tauto

theorem mem_ringErase {r : RingMap} {hv : Nat} {p : Nat × String} :
    p ∈ ringErase r hv ↔ p ∈ r ∧ p.1 ≠ hv := by
  induction r with
  | nil => simp [ringErase]
  | cons q rest ih =>
    obtain ⟨h0, v0⟩ := q
    by_cases h1 : h0 = hv
    · have he : ringErase ((h0, v0) :: rest) hv = ringErase rest hv := by
        simp [ringErase, h1]
      rw [he, ih]
      constructor
      · rintro ⟨hm, hne⟩
        exact ⟨List.mem_cons_of_mem _ hm, hne⟩
      · rintro ⟨hm, hne⟩
        rcases List.mem_cons.mp hm with h2 | h2
        · cases h2
          exact absurd h1 hne
        · exact ⟨h2, hne⟩
    · have he : ringErase ((h0, v0) :: rest) hv = (h0, v0) :: ringErase rest hv := by
        simp [ringErase, h1]
      rw [he]
      constructor
      · intro hm
        rcases List.mem_cons.mp hm with h2 | h2
        · cases h2
          exact ⟨List.mem_cons_self _ _, h1⟩
        · obtain ⟨hm2, hne⟩ := ih.mp h2
          exact ⟨List.mem_cons_of_mem _ hm2, hne⟩
      · rintro ⟨hm, hne⟩
        rcases List.mem_cons.mp hm with h2 | h2
        · rw [h2]
          exact List.mem_cons_self _ _
        · exact List.mem_cons_of_mem _ (ih.mpr ⟨h2, hne⟩)

theorem mem_insertKeys (g : Nat → Nat) (v : String) (is : List Nat) :
    ∀ (r : RingMap) (p : Nat × String), p ∈ insertKeys g v is r →
      p ∈ r ∨ ∃ i ∈ is, p = (g i, v) := by
  induction is with
  | nil => intro r p hp; exact Or.inl hp
  | cons i is ih =>
    intro r p hp
    rcases ih (ringInsert r (g i) v) p hp with h1 | ⟨j, hj1, hj2⟩
    · rcases mem_ringInsert h1 with h2 | h2
      · exact Or.inr ⟨i, by simp, h2⟩
      · exact Or.inl h2
    · exact Or.inr ⟨j, by simp [hj1], hj2⟩

theorem mem_eraseKeys (g : Nat → Nat) (is : List Nat) :
    ∀ (r : RingMap) (p : Nat × String),
      p ∈ eraseKeys g is r ↔ p ∈ r ∧ ∀ i ∈ is, p.1 ≠ g i := by
  induction is with
  | nil => intro r p; simp [eraseKeys]
  | cons i is ih =>
    intro r p
    have h1 : eraseKeys g (i :: is) r = eraseKeys g is (ringErase r (g i)) := rfl
    rw [h1, ih, mem_ringErase]
    constructor
    · rintro ⟨⟨hm, hne⟩, hall⟩
      refine ⟨hm, fun j hj => ?_⟩
      rcases List.mem_cons.mp hj with rfl | hj2
      · exact hne
      · exact hall j hj2
    · rintro ⟨hm, hall⟩
      exact ⟨⟨hm, hall i (by simp)⟩, fun j hj => hall j (by simp [hj])⟩

theorem lowerBound_mem : ∀ {r : RingMap} {hv : Nat} {p : Nat × String},
    lowerBound r hv = some p → p ∈ r := by
  intro r
  induction r with
  | nil => intro hv p h; simp [lowerBound] at h
  | cons q rest ih =>
    intro hv p h
    obtain ⟨h0, v0⟩ := q
    by_cases h1 : hv ≤ h0
    · obtain rfl : (h0, v0) = p := by simpa [lowerBound, h1] using h
      exact List.mem_cons_self _ _
    · have h2 : lowerBound rest hv = some p := by simpa [lowerBound, h1] using h
      exact List.mem_cons_of_mem _ (ih h2)

theorem mem_of_head?_eq {α : Type} {l : List α} {a : α} (h : l.head? = some a) :
    a ∈ l := by
  cases l with
  | nil => simp at h
  | cons b t =>
    obtain rfl : b = a := by simpa using h
    exact List.mem_cons_self _ _

/-- `getNode` returns `""` or the value of some ring entry. -/
theorem getNode_mem_or (hsh : String → Nat) (r : RingMap) (k : String) :
    getNode hsh r k = "" ∨ ∃ p ∈ r, getNode hsh r k = p.2 := by
  unfold getNode
  cases hlb : lowerBound r (hsh k) with
  | some p => exact Or.inr ⟨p, lowerBound_mem hlb, rfl⟩
  | none =>
    cases hh : r.head? with
    | some q => exact Or.inr ⟨q, mem_of_head?_eq hh, rfl⟩
    | none => exact Or.inl rfl

theorem lowerBound_ringInsert (r : RingMap) (hv hk : Nat) (v : String) :
    lowerBound (ringInsert r hv v) hk = some (hv, v)
    ∨ lowerBound (ringInsert r hv v) hk = lowerBound r hk := by
  induction r with
  | nil =>
    by_cases h1 : hk ≤ hv
    · exact Or.inl (by simp [ringInsert, lowerBound, h1])
    · exact Or.inr (by simp [ringInsert, lowerBound, h1])
  | cons q rest ih =>
    obtain ⟨h0, v0⟩ := q
    by_cases h1 : hv < h0
    · by_cases h2 : hk ≤ hv
      · exact Or.inl (by simp [ringInsert, lowerBound, h1, h2])
      · exact Or.inr (by simp [ringInsert, lowerBound, h1, h2])
    · by_cases h2 : hv = h0
      · subst h2
        by_cases h3 : hk ≤ hv
        · exact Or.inl (by simp [ringInsert, lowerBound, h1, h3])
        · exact Or.inr (by simp [ringInsert, lowerBound, h1, h3])
      · by_cases h3 : hk ≤ h0
        · exact Or.inr (by simp [ringInsert, lowerBound, h1, h2, h3])
        · rcases ih with h4 | h4
          · exact Or.inl (by simp [ringInsert, lowerBound, h1, h2, h3, h4])
          · exact Or.inr (by simp [ringInsert, lowerBound, h1, h2, h3, h4])

theorem head?_ringInsert (r : RingMap) (hv : Nat) (v : String) :
    (ringInsert r hv v).head? = some (hv, v)
    ∨ (ringInsert r hv v).head? = r.head? := by
  cases r with
  | nil => exact Or.inl (by simp [ringInsert])
  | cons q rest =>
    obtain ⟨h0, v0⟩ := q
    by_cases h1 : hv < h0
    · exact Or.inl (by simp [ringInsert, h1])
    · by_cases h2 : hv = h0
      · exact Or.inl (by simp [ringInsert, h1, h2])
      · exact Or.inr (by simp [ringInsert, h1, h2])

/-- One insert changes a lookup result only to the inserted value. -/
theorem getNode_ringInsert (hsh : String → Nat) (r : RingMap) (hv : Nat)
    (v : String) (k : String) :
    getNode hsh (ringInsert r hv v) k = getNode hsh r k
    ∨ getNode hsh (ringInsert r hv v) k = v := by
  unfold getNode
  rcases lowerBound_ringInsert r hv (hsh k) v with h1 | h1 <;> rw [h1]
  · exact Or.inr rfl
  · cases hlb : lowerBound r (hsh k) with
    | some p => exact Or.inl rfl
    | none =>
      rcases head?_ringInsert r hv v with h2 | h2 <;> rw [h2]
      · exact Or.inr rfl
      · exact Or.inl rfl

theorem lowerBound_ringErase (r : RingMap) (e hk : Nat) :
    lowerBound (ringErase r e) hk = lowerBound r hk
    ∨ ∃ q, lowerBound r hk = some q ∧ q.1 = e := by
  induction r with
  | nil => exact Or.inl rfl
  | cons q rest ih =>
    obtain ⟨h0, v0⟩ := q
    by_cases h1 : h0 = e
    · subst h1
      by_cases h2 : hk ≤ h0
      · exact Or.inr ⟨(h0, v0), by simp [lowerBound, h2], rfl⟩
      · rcases ih with h3 | ⟨q', hq1, hq2⟩
        · exact Or.inl (by simp [ringErase, lowerBound, h2, h3])
        · exact Or.inr ⟨q', by simp [lowerBound, h2, hq1], hq2⟩
    · by_cases h2 : hk ≤ h0
      · exact Or.inl (by simp [ringErase, lowerBound, h1, h2])
      · rcases ih with h3 | ⟨q', hq1, hq2⟩
        · exact Or.inl (by simp [ringErase, lowerBound, h1, h2, h3])
        · exact Or.inr ⟨q', by simp [lowerBound, h2, hq1], hq2⟩

theorem head?_ringErase (r : RingMap) (e : Nat) :
    (ringErase r e).head? = r.head? ∨ ∃ q, r.head? = some q ∧ q.1 = e := by
  cases r with
  | nil => exact Or.inl rfl
  | cons q rest =>
    obtain ⟨h0, v0⟩ := q
    by_cases h1 : h0 = e
    · exact Or.inr ⟨(h0, v0), rfl, h1⟩
    · exact Or.inl (by simp [ringErase, h1])

/-- One erase, when every entry at the erased hash carries value `v`,
changes a lookup result only away from `v`. -/
theorem getNode_ringErase (hsh : String → Nat) (r : RingMap) (e : Nat)
    (v : String) (k : String) (he : ∀ p ∈ r, p.1 = e → p.2 = v) :
    getNode hsh (ringErase r e) k = getNode hsh r k ∨ getNode hsh r k = v := by
  unfold getNode
  rcases lowerBound_ringErase r e (hsh k) with h1 | ⟨q, hq1, hq2⟩
  · rw [h1]
    cases hlb : lowerBound r (hsh k) with
    | some p => exact Or.inl rfl
    | none =>
      rcases head?_ringErase r e with h2 | ⟨q, hq1, hq2⟩
      · rw [h2]
        exact Or.inl rfl
      · rw [hq1]
        exact Or.inr (he q (mem_of_head?_eq hq1) hq2)
  · rw [hq1]
    exact Or.inr (he q (lowerBound_mem hq1) hq2)

/-- Folding inserts of value `v` changes a lookup result only to `v`. -/
theorem getNode_insertKeys (hsh : String → Nat) (g : Nat → Nat) (v : String)
    (is : List Nat) (k : String) :
    ∀ r : RingMap, getNode hsh (insertKeys g v is r) k = getNode hsh r k
      ∨ getNode hsh (insertKeys g v is r) k = v := by
  induction is with
  | nil => intro r; exact Or.inl rfl
  | cons i is ih =>
    intro r
    have h1 : insertKeys g v (i :: is) r = insertKeys g v is (ringInsert r (g i) v) := rfl
    rw [h1]
    rcases ih (ringInsert r (g i) v) with h2 | h2
    · rcases getNode_ringInsert hsh r (g i) v k with h3 | h3
      · exact Or.inl (h2.trans h3)
      · exact Or.inr (h2.trans h3)
    · exact Or.inr h2

/-- Folding erases, when every entry at an erased hash carries value
`v`, changes a lookup result only away from `v`. -/
theorem getNode_eraseKeys (hsh : String → Nat) (g : Nat → Nat) (v : String)
    (is : List Nat) (k : String) :
    ∀ r : RingMap, (∀ p ∈ r, (∃ i ∈ is, p.1 = g i) → p.2 = v) →
      getNode hsh (eraseKeys g is r) k = getNode hsh r k
      ∨ getNode hsh r k = v := by
  induction is with
  | nil => intro r _; exact Or.inl rfl
  | cons i is ih =>
    intro r hg
    have h1 : eraseKeys g (i :: is) r = eraseKeys g is (ringErase r (g i)) := rfl
    rw [h1]
    have he : ∀ p ∈ r, p.1 = g i → p.2 = v := fun p hp h => hg p hp ⟨i, by simp, h⟩
    have hg2 : ∀ p ∈ ringErase r (g i), (∃ j ∈ is, p.1 = g j) → p.2 = v := by
      rintro p hp ⟨j, hj1, hj2⟩
      exact hg p (mem_ringErase.mp hp).1 ⟨j, by simp [hj1], hj2⟩
    rcases getNode_ringErase hsh r (g i) v k he with h2 | h2
    · rcases ih (ringErase r (g i)) hg2 with h3 | h3
      · exact Or.inl (h3.trans h2)
      · exact Or.inr (h2.symm.trans h3)
    · exact Or.inr h2

theorem goodRing_applyRingOps (hsh : String → Nat) (numReplicas : Nat)
    (ops : List RingOp) :
    ∀ r : RingMap, GoodRing hsh numReplicas r →
      GoodRing hsh numReplicas (applyRingOps hsh numReplicas ops r) := by
  induction ops with
  | nil => intro r h; exact h
  | cons op ops ih =>
    intro r h
    have h1 : applyRingOps hsh numReplicas (op :: ops) r
        = applyRingOps hsh numReplicas ops (applyRingOp hsh numReplicas r op) := rfl
    rw [h1]
    apply ih
    cases op with
    | add n =>
      intro p hp
      rcases mem_insertKeys (replicaKey hsh n) n (List.range numReplicas) r p hp
        with h2 | ⟨i, hi1, hi2⟩
      · exact h p h2
      · subst hi2
        exact ⟨i, List.mem_range.mp hi1, rfl⟩
    | remove n =>
      intro p hp
      exact h p ((mem_eraseKeys (replicaKey hsh n) (List.range numReplicas) r p).mp hp).1

/-- After `removeNode c` on a ring whose entries all sit at their own
replica hashes, no entry carries value `c`. -/
theorem noVal_removeNode (hsh : String → Nat) (numReplicas : Nat)
    (r : RingMap) (c : String) (hgood : GoodRing hsh numReplicas r) :
    NoVal c (removeNode hsh numReplicas r c) := by
  intro p hp
  obtain ⟨hm, hall⟩ :=
    (mem_eraseKeys (replicaKey hsh c) (List.range numReplicas) r p).mp hp
  obtain ⟨i, hiR, hkey⟩ := hgood p hm
  intro hpc
  exact hall i (List.mem_range.mpr hiR) (hkey.trans (by rw [hpc]))

/-- Mutations that never `addNode c` preserve the absence of value `c`. -/
theorem noVal_applyRingOps (hsh : String → Nat) (numReplicas : Nat)
    (c : String) (ops : List RingOp)
    (hops : ∀ op ∈ ops, isAddOf c op = false) :
    ∀ r : RingMap, NoVal c r →
      NoVal c (applyRingOps hsh numReplicas ops r) := by
  induction ops with
  | nil => intro r h; exact h
  | cons op ops ih =>
    intro r h
    have h1 : applyRingOps hsh numReplicas (op :: ops) r
        = applyRingOps hsh numReplicas ops (applyRingOp hsh numReplicas r op) := rfl
    rw [h1]
    apply ih (fun o ho => hops o (by simp [ho]))
    cases op with
    | add n =>
      have hn : n ≠ c := by
        have h2 := hops (RingOp.add n) (by simp)
        simpa [isAddOf] using h2
      intro p hp
      rcases mem_insertKeys (replicaKey hsh n) n (List.range numReplicas) r p hp
        with h2 | ⟨i, _, hi2⟩
      · exact h p h2
      · subst hi2
        exact hn
    | remove n =>
      intro p hp
      exact h p ((mem_eraseKeys (replicaKey hsh n) (List.range numReplicas) r p).mp hp).1

/-! ## Claim C3: a removed node is never returned again -/

/-- Claim C3 counterexample: the empty string is a legal node name, and
after `removeNode("")` on a ring with no points, `getNode` returns
`""` — which equals the removed name — because `""` doubles as the
empty-ring result. -/
theorem ring_removed_cex :
    getNode hashLen
      (applyRingOps hashLen 1 ([] ++ RingOp.remove "" :: []) []) "key"
      = "" := by
  decide

/-- Claim C3 (amended): for every sequence of `addNode`/`removeNode`
calls on one ring (fixed `numReplicas`, arbitrary hash) in which node
name `c` is removed and not added again afterwards, `getNode` never
returns `c` — provided `c` is not the empty string (which is the
marker returned for an empty ring). -/
theorem ring_removed_not_returned (hsh : String → Nat) (numReplicas : Nat)
    (pre post : List RingOp) (c k : String) (hc : c ≠ "")
    (hpost : ∀ op ∈ post, isAddOf c op = false) :
    getNode hsh
      (applyRingOps hsh numReplicas (pre ++ RingOp.remove c :: post) []) k
      ≠ c := by
  have hsplit : applyRingOps hsh numReplicas (pre ++ RingOp.remove c :: post) []
      = applyRingOps hsh numReplicas post
          (removeNode hsh numReplicas (applyRingOps hsh numReplicas pre []) c) := by
    simp [applyRingOps, List.foldl_append]
    rfl
  rw [hsplit]
  have hgood : GoodRing hsh numReplicas (applyRingOps hsh numReplicas pre []) :=
    goodRing_applyRingOps hsh numReplicas pre [] (by intro p hp; simp at hp)
  have hnov : NoVal c
      (applyRingOps hsh numReplicas post
        (removeNode hsh numReplicas (applyRingOps hsh numReplicas pre []) c)) :=
    noVal_applyRingOps hsh numReplicas c post hpost _
      (noVal_removeNode hsh numReplicas _ c hgood)
  rcases getNode_mem_or hsh
      (applyRingOps hsh numReplicas post
        (removeNode hsh numReplicas (applyRingOps hsh numReplicas pre []) c)) k
    with h | ⟨p, hp, hpt⟩
  · rw [h]
    exact fun hcc => hc hcc.symm
  · rw [hpt]
    exact hnov p hp

/-- Witness for `ring_removed_not_returned`: ring built with nodes
`A`, `C`, then `C` removed and `B` added. -/
theorem ring_removed_not_returned_witness :
    getNode hashLen
      (applyRingOps hashLen 2
        ([RingOp.add "A", RingOp.add "C"]
          ++ RingOp.remove "C" :: [RingOp.add "B"]) []) "IBM"
      ≠ "C" :=
  ring_removed_not_returned hashLen 2 [RingOp.add "A", RingOp.add "C"]
    [RingOp.add "B"] "C" "IBM" (by decide) (by decide)

/-! ## Claim C4: one membership change moves only that node's keys -/

/-- Claim C4 counterexample: with a hash on which `X#0` collides with
`Y#0` (not excluded for `std::hash`), `removeNode("X")` erases the
live point of node `Y`: the lookup changes, yet the old owner was `Y`,
not `X`.  The ring state is reachable (`addNode("Y")` from empty). -/
theorem ring_single_change_cex :
    getNode hashCollide
        (removeNode hashCollide 1 (addNode hashCollide 1 [] "Y") "X") "q"
      ≠ getNode hashCollide (addNode hashCollide 1 [] "Y") "q"
    ∧ getNode hashCollide (addNode hashCollide 1 [] "Y") "q" ≠ "X" := by
  constructor <;> decide

/-- Claim C4 (amended): for every ring state, node name `x` and key:
if `getNode` after `addNode(x)` differs from before, the new result is
`x` (unconditionally); and if `getNode` after `removeNode(x)` differs
from before, the old result was `x` — the latter provided every ring
entry lying at one of `x`'s replica-point hashes carries value `x`
(i.e. no other node's point collides with `x`'s points); the
hypothesis scopes only the remove direction. -/
theorem ring_single_change (hsh : String → Nat) (numReplicas : Nat)
    (r : RingMap) (x k : String) :
    (getNode hsh (addNode hsh numReplicas r x) k ≠ getNode hsh r k →
       getNode hsh (addNode hsh numReplicas r x) k = x)
    ∧ ((∀ p ∈ r, ∀ i, i < numReplicas → p.1 = replicaKey hsh x i → p.2 = x) →
       getNode hsh (removeNode hsh numReplicas r x) k ≠ getNode hsh r k →
       getNode hsh r k = x) := by
  constructor
  · intro hne
    rcases getNode_insertKeys hsh (replicaKey hsh x) x (List.range numReplicas) k r
      with h | h
    · exact absurd h hne
    · exact h
  · intro hown hne
    have hg : ∀ p ∈ r, (∃ i ∈ List.range numReplicas, p.1 = replicaKey hsh x i) →
        p.2 = x := by
      rintro p hp ⟨i, hi1, hi2⟩
      exact hown p hp i (List.mem_range.mp hi1) hi2
    rcases getNode_eraseKeys hsh (replicaKey hsh x) x (List.range numReplicas) k r hg
      with h | h
    · exact absurd h hne
    · exact h

/-- Witness for `ring_single_change` on a collision-free concrete
state. -/
theorem ring_single_change_witness :
    (∀ p ∈ [((9 : Nat), "A")], ∀ i, i < 1 →
      p.1 = replicaKey hashCollide "X" i → p.2 = "X")
    ∧ ((getNode hashCollide (addNode hashCollide 1 [((9 : Nat), "A")] "X") "q"
          ≠ getNode hashCollide [((9 : Nat), "A")] "q" →
        getNode hashCollide (addNode hashCollide 1 [((9 : Nat), "A")] "X") "q" = "X")
      ∧ (getNode hashCollide (removeNode hashCollide 1 [((9 : Nat), "A")] "X") "q"
          ≠ getNode hashCollide [((9 : Nat), "A")] "q" →
        getNode hashCollide [((9 : Nat), "A")] "q" = "X")) :=
  ⟨by decide,
   (ring_single_change hashCollide 1 [((9 : Nat), "A")] "X" "q").1,
   (ring_single_change hashCollide 1 [((9 : Nat), "A")] "X" "q").2 (by decide)⟩

/-! ## Claim C5: getNode matches the spec's clockwise-ring description -/

theorem ringSorted_ringInsert (r : RingMap) (hv : Nat) (v : String)
    (hs : RingSorted r) : RingSorted (ringInsert r hv v) := by
  induction r with
  | nil => simp [ringInsert, RingSorted]
  | cons q rest ih =>
    obtain ⟨h0, v0⟩ := q
    obtain ⟨hlt, hrest⟩ := List.pairwise_cons.mp hs
    by_cases h1 : hv < h0
    · have he : ringInsert ((h0, v0) :: rest) hv v = (hv, v) :: (h0, v0) :: rest := by
        simp [ringInsert, h1]
      rw [he]
      refine List.pairwise_cons.mpr ⟨?_, hs⟩
      intro p hp
      rcases List.mem_cons.mp hp with rfl | hp2
      · exact h1
      · exact h1.trans (hlt p hp2)
    · by_cases h2 : hv = h0
      · have he : ringInsert ((h0, v0) :: rest) hv v = (hv, v) :: rest := by
          simp [ringInsert, h1, h2]
        rw [he]
        refine List.pairwise_cons.mpr ⟨?_, hrest⟩
        intro p hp
        rw [show ((hv, v) : Nat × String).1 = h0 from h2]
        exact hlt p hp
      · have he : ringInsert ((h0, v0) :: rest) hv v
            = (h0, v0) :: ringInsert rest hv v := by
          simp [ringInsert, h1, h2]
        rw [he]
        refine List.pairwise_cons.mpr ⟨?_, ih hrest⟩
        intro p hp
        rcases mem_ringInsert hp with rfl | hp2
        · have : h0 < hv := by omega
          exact this
        · exact hlt p hp2

theorem ringSorted_ringErase (r : RingMap) (e : Nat) (hs : RingSorted r) :
    RingSorted (ringErase r e) := by
  induction r with
  | nil => simpa [ringErase] using hs
  | cons q rest ih =>
    obtain ⟨h0, v0⟩ := q
    obtain ⟨hlt, hrest⟩ := List.pairwise_cons.mp hs
    by_cases h1 : h0 = e
    · have he : ringErase ((h0, v0) :: rest) e = ringErase rest e := by
        simp [ringErase, h1]
      rw [he]
      exact ih hrest
    · have he : ringErase ((h0, v0) :: rest) e = (h0, v0) :: ringErase rest e := by
        simp [ringErase, h1]
      rw [he]
      refine List.pairwise_cons.mpr ⟨?_, ih hrest⟩
      intro p hp
      exact hlt p (mem_ringErase.mp hp).1

theorem ringSorted_insertKeys (g : Nat → Nat) (v : String) (is : List Nat) :
    ∀ r : RingMap, RingSorted r → RingSorted (insertKeys g v is r) := by
  induction is with
  | nil => intro r h; exact h
  | cons i is ih =>
    intro r h
    exact ih (ringInsert r (g i) v) (ringSorted_ringInsert r (g i) v h)

theorem ringSorted_eraseKeys (g : Nat → Nat) (is : List Nat) :
    ∀ r : RingMap, RingSorted r → RingSorted (eraseKeys g is r) := by
  induction is with
  | nil => intro r h; exact h
  | cons i is ih =>
    intro r h
    exact ih (ringErase r (g i)) (ringSorted_ringErase r (g i) h)

/-- Every reachable ring state is sorted (the `std::map` invariant). -/
theorem ringSorted_applyRingOps (hsh : String → Nat) (numReplicas : Nat)
    (ops : List RingOp) :
    ∀ r : RingMap, RingSorted r →
      RingSorted (applyRingOps hsh numReplicas ops r) := by
  induction ops with
  | nil => intro r h; exact h
  | cons op ops ih =>
    intro r h
    apply ih
    cases op with
    | add n => exact ringSorted_insertKeys (replicaKey hsh n) n _ r h
    | remove n => exact ringSorted_eraseKeys (replicaKey hsh n) _ r h

/-- On a sorted ring, `lower_bound` returns the first qualifying entry
in list order. -/
theorem lowerBound_eq_filter_head (r : RingMap) (hk : Nat) :
    lowerBound r hk = (r.filter fun p => decide (hk ≤ p.1)).head? := by
  induction r with
  | nil => rfl
  | cons q rest ih =>
    obtain ⟨h0, v0⟩ := q
    by_cases h1 : hk ≤ h0
    · simp [lowerBound, List.filter_cons, h1]
    · simp [lowerBound, List.filter_cons, h1, ih]

/-- On a sorted ring, the least entry by hash is the head. -/
theorem minByFst_sorted (r : RingMap) (hs : RingSorted r) :
    minByFst r = r.head? := by
  induction r with
  | nil => rfl
  | cons q rest ih =>
    obtain ⟨hlt, hrest⟩ := List.pairwise_cons.mp hs
    have he : minByFst (q :: rest)
        = match minByFst rest with
          | none => some q
          | some p => if p.1 < q.1 then some p else some q := rfl
    rw [he, ih hrest]
    cases hr : rest.head? with
    | none => rfl
    | some p =>
      have hp : ¬ (p.1 < q.1) := Nat.lt_asymm (hlt p (mem_of_head?_eq hr))
      simp [hp]

/-- Claim C5: on every (sorted, as `std::map` guarantees) ring state,
`getNode` computes `hash(key)`, returns the node stored at the least
ring point with hash ≥ the key's hash, wraps to the point with the
smallest hash when none exists, and returns `""` on an empty ring —
i.e. it agrees with the spec-side `getNodeSpec`. -/
theorem getNode_matches_spec (hsh : String → Nat) (r : RingMap) (k : String)
    (hs : RingSorted r) : getNode hsh r k = getNodeSpec hsh r k := by
  unfold getNode getNodeSpec
  rw [lowerBound_eq_filter_head r (hsh k),
      minByFst_sorted _ (List.Pairwise.filter _ hs),
      minByFst_sorted r hs]

/-- Witness for `getNode_matches_spec` on a concrete sorted ring. -/
theorem getNode_matches_spec_witness :
    RingSorted [((3 : Nat), "A"), ((7 : Nat), "B")]
    ∧ getNode hashLen [((3 : Nat), "A"), ((7 : Nat), "B")] "IBM"
        = getNodeSpec hashLen [((3 : Nat), "A"), ((7 : Nat), "B")] "IBM" :=
  ⟨by decide, getNode_matches_spec hashLen _ "IBM" (by decide)⟩

/-! ## Claim C6: the one-command client protocol -/

/-- Claim C6: for a received command line, the handler replies
`VALUE <value>\n` / `NOT_FOUND\n` to `GET <key>` (present/absent,
without touching the state), sends no response for `PUT <key> <value>`
and `REMOVE <key>`, sends no response and performs no state change for
any other leading token, and always closes the connection. -/
theorem handle_client_protocol (k v : List Char) (st : NodeState)
    (hk : wfTok k) :
    ((st.store k = some v →
        (handleClient (getTok ++ ' ' :: (k ++ ['\n'])) st).response
          = some (valueResp v))
     ∧ (st.store k = none →
        (handleClient (getTok ++ ' ' :: (k ++ ['\n'])) st).response
          = some notFoundResp)
     ∧ (handleClient (getTok ++ ' ' :: (k ++ ['\n'])) st).state = st
     ∧ (handleClient (getTok ++ ' ' :: (k ++ ['\n'])) st).closed = true)
    ∧ (∀ v2, wfTok v2 →
        (handleClient (logOp (WalOp.put k v2)) st).response = none
        ∧ (handleClient (logOp (WalOp.put k v2)) st).closed = true)
    ∧ ((handleClient (logOp (WalOp.remove k)) st).response = none
        ∧ (handleClient (logOp (WalOp.remove k)) st).closed = true)
    ∧ (∀ req, (∀ t, (tokenize req).head? = some t →
          t ≠ putTok ∧ t ≠ removeTok ∧ t ≠ getTok) →
        handleClient req st = ⟨none, st, true⟩) := by
  have hnp : ¬ (getTok = putTok) := by decide
  have hnr : ¬ (getTok = removeTok) := by decide
  have hget : tokenize (getTok ++ ' ' :: (k ++ ['\n'])) = [getTok, k] := by
    rw [tokenize_tok_ws getTok (by decide) ' ' (by decide),
        tokenize_tok_ws k hk '\n' (by decide)]
    rfl
  have hg2 : handleClient (getTok ++ ' ' :: (k ++ ['\n'])) st
      = match st.store k with
        | some v2 => ⟨some (valueResp v2), st, true⟩
        | none => ⟨some notFoundResp, st, true⟩ := by
    rw [handleClient, hget]
    simp [handleToks, hnp, hnr]
  refine ⟨⟨?_, ?_, ?_, ?_⟩, ?_, ?_, ?_⟩
  · intro hsv
    rw [hg2, hsv]
  · intro hsv
    rw [hg2, hsv]
  · rw [hg2]
    cases st.store k <;> rfl
  · rw [hg2]
    cases st.store k <;> rfl
  · intro v2 hv2
    have hput : tokenize (logOp (WalOp.put k v2)) = [putTok, k, v2] := by
      have h1 := tokenize_logOp (WalOp.put k v2) [] ⟨hk, hv2⟩
      simpa [tokenize, tokenizeAux, opToks] using h1
    have h2 : handleClient (logOp (WalOp.put k v2)) st
        = ⟨none, ⟨storePut st.store k v2, st.wal ++ logOp (WalOp.put k v2)⟩, true⟩ := by
      rw [handleClient, hput]
      simp [handleToks]
    rw [h2]
    exact ⟨rfl, rfl⟩
  · have hrem : tokenize (logOp (WalOp.remove k)) = [removeTok, k] := by
      have h1 := tokenize_logOp (WalOp.remove k) [] hk
      simpa [tokenize, tokenizeAux, opToks] using h1
    have hnrp : ¬ (removeTok = putTok) := by decide
    have h2 : handleClient (logOp (WalOp.remove k)) st
        = ⟨none, ⟨(storeRemove st.store k).2, st.wal ++ logOp (WalOp.remove k)⟩, true⟩ := by
      rw [handleClient, hrem]
      simp [handleToks, hnrp]
    rw [h2]
    exact ⟨rfl, rfl⟩
  · intro req hreq
    rw [handleClient]
    cases htk : tokenize req with
    | nil => rfl
    | cons t rest =>
      obtain ⟨h1, h2, h3⟩ := hreq t (by rw [htk]; rfl)
      cases rest with
      | nil => simp [handleToks, h1, h2, h3]
      | cons a ts =>
        cases ts with
        | nil => simp [handleToks, h1, h2, h3]
        | cons b ts2 => simp [handleToks, h1, h2, h3]

/-- Witness for `handle_client_protocol` at key `IBM` on the empty
store. -/
theorem handle_client_protocol_witness :
    wfTok ['I', 'B', 'M']
    ∧ (handleClient (getTok ++ ' ' :: (['I', 'B', 'M'] ++ ['\n']))
        ⟨emptyStore, []⟩).response = some notFoundResp :=
  ⟨by decide,
   ((handle_client_protocol ['I', 'B', 'M'] ['1'] ⟨emptyStore, []⟩
      (by decide)).1.2.1) rfl⟩

/-! ## Claim C10: short commands default missing tokens to "" -/

/-- Claim C10: a `PUT` with fewer than two arguments is not rejected:
the handler still calls `put` with the missing tokens defaulted to
empty strings, mutating the store and appending the corresponding WAL
record; a bare `REMOVE` removes the empty-string key (logging it), and
a bare `GET` looks up the empty-string key. -/
theorem handle_client_short_commands (k : List Char) (st : NodeState)
    (hk : wfTok k) :
    handleClient (putTok ++ ' ' :: (k ++ ['\n'])) st
      = ⟨none, ⟨storePut st.store k [], st.wal ++ logOp (WalOp.put k [])⟩, true⟩
    ∧ handleClient (putTok ++ ['\n']) st
      = ⟨none, ⟨storePut st.store [] [], st.wal ++ logOp (WalOp.put [] [])⟩, true⟩
    ∧ handleClient (removeTok ++ ['\n']) st
      = ⟨none, ⟨(storeRemove st.store []).2, st.wal ++ logOp (WalOp.remove [])⟩, true⟩
    ∧ handleClient (getTok ++ ['\n']) st
      = ⟨(match st.store [] with
          | some v => some (valueResp v)
          | none => some notFoundResp), st, true⟩ := by
  have hnrp : ¬ (removeTok = putTok) := by decide
  have hngp : ¬ (getTok = putTok) := by decide
  have hngr : ¬ (getTok = removeTok) := by decide
  refine ⟨?_, ?_, ?_, ?_⟩
  · have h1 : tokenize (putTok ++ ' ' :: (k ++ ['\n'])) = [putTok, k] := by
      rw [tokenize_tok_ws putTok (by decide) ' ' (by decide),
          tokenize_tok_ws k hk '\n' (by decide)]
      rfl
    rw [handleClient, h1]
    simp [handleToks]
  · have h1 : tokenize (putTok ++ ['\n']) = [putTok] := by
      rw [show putTok ++ ['\n'] = putTok ++ '\n' :: [] from rfl,
          tokenize_tok_ws putTok (by decide) '\n' (by decide)]
      rfl
    rw [handleClient, h1]
    simp [handleToks]
  · have h1 : tokenize (removeTok ++ ['\n']) = [removeTok] := by
      rw [show removeTok ++ ['\n'] = removeTok ++ '\n' :: [] from rfl,
          tokenize_tok_ws removeTok (by decide) '\n' (by decide)]
      rfl
    rw [handleClient, h1]
    simp [handleToks, hnrp]
  · have h1 : tokenize (getTok ++ ['\n']) = [getTok] := by
      rw [show getTok ++ ['\n'] = getTok ++ '\n' :: [] from rfl,
          tokenize_tok_ws getTok (by decide) '\n' (by decide)]
      rfl
    rw [handleClient, h1]
    simp only [handleToks, hngp, hngr, if_false, if_neg]
    cases st.store [] <;> rfl

/-- Witness for `handle_client_short_commands`: the one-argument line
`PUT K\n` on the empty store puts `("K", "")` and logs `PUT K \n`. -/
theorem handle_client_short_commands_witness :
    wfTok ['K']
    ∧ handleClient (putTok ++ ' ' :: (['K'] ++ ['\n'])) ⟨emptyStore, []⟩
        = ⟨none, ⟨storePut emptyStore ['K'] [],
                  [] ++ logOp (WalOp.put ['K'] [])⟩, true⟩ :=
  ⟨by decide,
   (handle_client_short_commands ['K'] ⟨emptyStore, []⟩ (by decide)).1⟩

/-! ## Claim C8: sequential ring-buffer behaviour -/

/-- After `kk ≤ Size` pushes from empty, `head = kk` and `tail = 0`
(all pushes having succeeded). -/
theorem pushN_state (α : Type) (size : Nat) (f : Nat → α) (d : α) :
    ∀ kk, kk ≤ size →
      (pushN size f (rbEmpty d) kk).head = kk
      ∧ (pushN size f (rbEmpty d) kk).tail = 0 := by
  intro kk
  induction kk with
  | zero => intro _; exact ⟨rfl, rfl⟩
  | succ n ih =>
    intro h
    obtain ⟨hh, ht⟩ := ih (by omega)
    have hcond : ¬ (((pushN size f (rbEmpty d) n).head + 1) % (size + 1)
        = (pushN size f (rbEmpty d) n).tail) := by
      rw [hh, ht, Nat.mod_eq_of_lt (by omega)]
      omega
    have hmod : (n + 1) % (size + 1) = n + 1 := Nat.mod_eq_of_lt (by omega)
    have he : pushN size f (rbEmpty d) (n + 1)
        = (rbPush size (f n) (pushN size f (rbEmpty d) n)).2 := rfl
    rw [he]
    simp only [rbPush]
    rw [if_neg hcond]
    constructor
    · simp [hh, hmod]
    · simp [ht]

/-- After `kk ≤ Size` pushes and then `jj ≤ kk` pops, `head = kk` and
`tail = jj` (all pops having succeeded). -/
theorem popN_state (α : Type) (size : Nat) (f : Nat → α) (d : α)
    (kk : Nat) (hkk : kk ≤ size) :
    ∀ jj, jj ≤ kk →
      (popN size (pushN size f (rbEmpty d) kk) jj).head = kk
      ∧ (popN size (pushN size f (rbEmpty d) kk) jj).tail = jj := by
  intro jj
  induction jj with
  | zero => intro _; exact pushN_state α size f d kk hkk
  | succ n ih =>
    intro h
    obtain ⟨hh, ht⟩ := ih (by omega)
    have hcond : ¬ ((popN size (pushN size f (rbEmpty d) kk) n).tail
        = (popN size (pushN size f (rbEmpty d) kk) n).head) := by
      rw [hh, ht]
      omega
    have hmod : (n + 1) % (size + 1) = n + 1 := Nat.mod_eq_of_lt (by omega)
    have he : popN size (pushN size f (rbEmpty d) kk) (n + 1)
        = (rbPop size (popN size (pushN size f (rbEmpty d) kk) n)).2 := rfl
    rw [he]
    simp only [rbPop]
    rw [if_neg hcond]
    constructor
    · simp [hh]
    · simp [ht, hmod]

/-- Claim C8: for a buffer of capacity `N` used sequentially from
empty: each of the first `N` pushes succeeds and the `(N+1)`th fails;
after one successful pop one more push succeeds; and after `K ≤ N`
pushes and `J ≤ K` pops every pop succeeded and `size()` returns
`K - J`. -/
theorem ringbuffer_sequential (α : Type) (d : α) (f : Nat → α) (x y : α)
    (N K J : Nat) (hN : 0 < N) (hK : K ≤ N) (hJ : J ≤ K) :
    (∀ j, j < N → (rbPush N (f j) (pushN N f (rbEmpty d) j)).1 = true)
    ∧ (rbPush N x (pushN N f (rbEmpty d) N)).1 = false
    ∧ (rbPop N (pushN N f (rbEmpty d) N)).1.isSome = true
    ∧ (rbPush N y (rbPop N (pushN N f (rbEmpty d) N)).2).1 = true
    ∧ (∀ j, j < J → (rbPop N (popN N (pushN N f (rbEmpty d) K) j)).1.isSome = true)
    ∧ rbSize N (popN N (pushN N f (rbEmpty d) K) J) = K - J := by
  obtain ⟨hhN, htN⟩ := pushN_state α N f d N (le_refl N)
  refine ⟨?_, ?_, ?_, ?_, ?_, ?_⟩
  · intro j hj
    obtain ⟨hh, ht⟩ := pushN_state α N f d j (by omega)
    have hcond : ¬ (((pushN N f (rbEmpty d) j).head + 1) % (N + 1)
        = (pushN N f (rbEmpty d) j).tail) := by
      rw [hh, ht, Nat.mod_eq_of_lt (by omega)]
      omega
    simp [rbPush, hcond]
  · have hcond : ((pushN N f (rbEmpty d) N).head + 1) % (N + 1)
        = (pushN N f (rbEmpty d) N).tail := by
      rw [hhN, htN, Nat.mod_self]
    simp [rbPush, hcond]
  · have hcond : ¬ ((pushN N f (rbEmpty d) N).tail
        = (pushN N f (rbEmpty d) N).head) := by
      rw [hhN, htN]
      omega
    simp [rbPop, hcond]
  · have hcond : ¬ ((pushN N f (rbEmpty d) N).tail
        = (pushN N f (rbEmpty d) N).head) := by
      rw [hhN, htN]
      omega
    have hstate : (rbPop N (pushN N f (rbEmpty d) N)).2.head = N
        ∧ (rbPop N (pushN N f (rbEmpty d) N)).2.tail = 1 := by
      have hmod : (0 + 1) % (N + 1) = 1 := Nat.mod_eq_of_lt (by omega)
      simp only [rbPop]
      rw [if_neg hcond]
      constructor
      · simp [hhN]
      · simp [htN, hmod]
    have hcond2 : ¬ (((rbPop N (pushN N f (rbEmpty d) N)).2.head + 1) % (N + 1)
        = (rbPop N (pushN N f (rbEmpty d) N)).2.tail) := by
      rw [hstate.1, hstate.2, Nat.mod_self]
      omega
    simp [rbPush, hcond2]
  · intro j hj
    obtain ⟨hh, ht⟩ := popN_state α N f d K hK j (by omega)
    have hcond : ¬ ((popN N (pushN N f (rbEmpty d) K) j).tail
        = (popN N (pushN N f (rbEmpty d) K) j).head) := by
      rw [hh, ht]
      omega
    simp [rbPop, hcond]
  · obtain ⟨hh, ht⟩ := popN_state α N f d K hK J hJ
    simp [rbSize, hh, ht, hJ]

/-- Witness for `ringbuffer_sequential` at `N = 3`, `K = 2`, `J = 1`. -/
theorem ringbuffer_sequential_witness :
    ((0 : Nat) < 3 ∧ (2 : Nat) ≤ 3 ∧ (1 : Nat) ≤ 2)
    ∧ ((∀ j, j < 3 →
          (rbPush 3 (id j) (pushN 3 (id : Nat → Nat) (rbEmpty 0) j)).1 = true)
      ∧ (rbPush 3 7 (pushN 3 (id : Nat → Nat) (rbEmpty 0) 3)).1 = false
      ∧ (rbPop 3 (pushN 3 (id : Nat → Nat) (rbEmpty 0) 3)).1.isSome = true
      ∧ (rbPush 3 8 (rbPop 3 (pushN 3 (id : Nat → Nat) (rbEmpty 0) 3)).2).1 = true
      ∧ (∀ j, j < 1 →
          (rbPop 3 (popN 3 (pushN 3 (id : Nat → Nat) (rbEmpty 0) 2) j)).1.isSome
            = true)
      ∧ rbSize 3 (popN 3 (pushN 3 (id : Nat → Nat) (rbEmpty 0) 2) 1) = 2 - 1) :=
  ⟨by omega,
   ringbuffer_sequential Nat 0 id 7 8 3 2 1 (by omega) (by omega) (by omega)⟩

/-! ## Claim C9: enqueue on a stopped ThreadPool -/

/-- Claim C9: once the pool's stop flag is set — the first thing the
destructor does — `enqueue` throws
`std::runtime_error("enqueue on stopped ThreadPool")` instead of
queueing the task; the queue is left unchanged. -/
theorem enqueue_after_stop (τ : Type) (st : PoolState τ) (t : τ)
    (h : st.stop = true) :
    enqueue st t = Except.error "enqueue on stopped ThreadPool"
    ∧ enqueue (shutdownBegin st) t
        = Except.error "enqueue on stopped ThreadPool" := by
  constructor
  · simp [enqueue, h]
  · simp [enqueue, shutdownBegin]

/-- Witness for `enqueue_after_stop` on a concrete stopped pool. -/
theorem enqueue_after_stop_witness :
    (PoolState.mk ([] : List Nat) true).stop = true
    ∧ enqueue (PoolState.mk ([] : List Nat) true) 0
        = Except.error "enqueue on stopped ThreadPool"
    ∧ enqueue (shutdownBegin (PoolState.mk ([] : List Nat) true)) 0
        = Except.error "enqueue on stopped ThreadPool" :=
  ⟨rfl,
   (enqueue_after_stop Nat (PoolState.mk [] true) 0 rfl).1,
   (enqueue_after_stop Nat (PoolState.mk [] true) 0 rfl).2⟩
